import Mathlib

/-!
Shallow embedding of the skill-extraction and candidate-matching core of the
`jobs` Django app (`src/jobs/services.py`), with proofs of the specification
claims about it.

Modelling conventions:
* Python strings are `List Char` (`Str` below); Python's `in` on strings is
  `containsSub`, `str.lower` is `Char.toLower` mapped over the list.
* Python `float` arithmetic in the weight formula is modelled with exact
  rationals, and Python 3's `round` (round-half-to-even) as `pythonRound`.
* The skill dictionary `SKILL_LOOKUP` (built in the source from the static
  `ALL_SKILLS` list, whose data file is not part of the algorithmic core) is
  an explicit association-list parameter `lookup`; its list order is the
  dictionary insertion order.
* The optional spaCy model is an `Option` of an abstract document producer:
  `none` models "model unavailable", and an `NlpDoc` carries the entity,
  noun-chunk and noun/proper-noun token signals the source reads from it.
* Database rows for one job / one user are explicit lists, and the persisting
  operations are state transformers returning the new rows with the payload.
-/

namespace JobBoard

/-- Python strings modelled as lists of characters. -/
abbrev Str := List Char

/-- Python's whitespace class (ASCII part), as used by `str.strip`,
`str.split` and the `\s` regex class. -/
def isSpaceChar (c : Char) : Bool :=
  c = ' ' || c = '\t' || c = '\n' || c = '\r' || c = '\x0b' || c = '\x0c'

/-- Python's `str.lower`. -/
def toLowerStr (x : Str) : Str := x.map Char.toLower

/-- Python's `str.strip()`: drop leading and trailing whitespace. -/
def stripStr (x : Str) : Str :=
  ((x.dropWhile isSpaceChar).reverse.dropWhile isSpaceChar).reverse

/-- Auxiliary for `re.sub(r"\s+", " ", ·)`: the flag records whether the
previous character was whitespace (i.e. we are inside a run already
replaced by one space). -/
def collapseWsAux : Bool → Str → Str
  | _, [] => []
  | prevWs, c :: rest =>
    if isSpaceChar c then
      if prevWs then collapseWsAux true rest
      else ' ' :: collapseWsAux true rest
    else c :: collapseWsAux false rest

/-- Model of `normalize_phrase` from `services.py`: empty guard, then
`re.sub(r"\s+", " ", phrase.strip().lower())`. -/
def normalize_phrase (phrase : Str) : Str :=
  if phrase = [] then []
  else collapseWsAux false (toLowerStr (stripStr phrase))

/-- Decidable "is a leading segment of" on character lists. -/
def isLeadingSeg : Str → Str → Bool
  | [], _ => true
  | _ :: _, [] => false
  | a :: as, b :: bs => if a = b then isLeadingSeg as bs else false

/-- Python's `needle in hay` substring test. -/
def containsSub (needle : Str) : Str → Bool
  | [] => needle.isEmpty
  | c :: t => isLeadingSeg needle (c :: t) || containsSub needle t

/-- Dictionary exact lookup (`normalized in SKILL_LOOKUP` followed by
`SKILL_LOOKUP[normalized]`), over the association-list model. -/
def lookupAssoc : List (Str × Str) → Str → Option Str
  | [], _ => none
  | (k, v) :: rest, n => if k = n then some v else lookupAssoc rest n

/-- The substring-containment scan of `find_canonical_skill`: first key (in
insertion order) that contains, or is contained in, the normalized phrase. -/
def firstContainment : List (Str × Str) → Str → Option Str
  | [], _ => none
  | (k, v) :: rest, n =>
    if containsSub k n || containsSub n k then some v else firstContainment rest n

/-- Model of `find_canonical_skill` from `services.py`, parameterized over the skill
dictionary. -/
def find_canonical_skill (lookup : List (Str × Str)) (phrase : Str) : Option Str :=
  let normalized := normalize_phrase phrase
  if normalized = [] then none
  else
    match lookupAssoc lookup normalized with
    | some c => some c
    | none => firstContainment lookup normalized

/-- The canonical-resolver algorithm as the specification words it
(section 4.1): normalize; empty/whitespace-only resolves to none; exact
dictionary-key equality first; otherwise the first key, in dictionary
insertion order, in a containment relationship with the phrase. -/
def findCanonicalSpec (lookup : List (Str × Str)) (phrase : Str) : Option Str :=
  let n := normalize_phrase phrase
  if n = [] then none
  else
    match lookup.find? (fun p => decide (p.1 = n)) with
    | some p => some p.2
    | none =>
      Option.map Prod.snd (lookup.find? (fun p => containsSub p.1 n || containsSub n p.1))

/-- The emphasis-keyword set `CONTEXT_KEYWORDS` of `services.py`. -/
def CONTEXT_KEYWORDS : List Str :=
  ["required".toList, "requirement".toList, "must".toList, "mandatory".toList,
   "key".toList, "essential".toList, "preferred".toList, "expert".toList,
   "experience".toList, "proven".toList, "strong".toList]

/-- Model of `sentence_has_context` from `services.py`. -/
def sentence_has_context (sentence : Str) : Bool :=
  CONTEXT_KEYWORDS.any (fun k => containsSub k (normalize_phrase sentence))

/-- The per-skill statistics record built by the accumulator. -/
structure SkillStats where
  count : Nat
  positions : List Nat
  context_hits : Nat
deriving Repr, DecidableEq

/-- The fresh entry `{"count": 0, "positions": [], "context_hits": 0}`. -/
def emptyStats : SkillStats := ⟨0, [], 0⟩

/-- In-place update of the first entry with the given key, appending a fresh
(default, then updated) entry at the end when the key is absent: the
association-list mirror of Python's dict `setdefault` followed by mutation,
preserving insertion order. -/
def updateAssoc (f : SkillStats → SkillStats) :
    List (Str × SkillStats) → Str → List (Str × SkillStats)
  | [], k => [(k, f emptyStats)]
  | (k', v) :: rest, k =>
    if k' = k then (k', f v) :: rest else (k', v) :: updateAssoc f rest k

/-- Model of `_update_skill_stats` from `services.py`. -/
def update_skill_stats (stats : List (Str × SkillStats)) (skill : Str)
    (position : Nat) (sentence : Str) : List (Str × SkillStats) :=
  updateAssoc
    (fun e =>
      { count := e.count + 1
        positions := e.positions ++ [position]
        context_hits := e.context_hits + (if sentence_has_context sentence then 1 else 0) })
    stats skill

/-- Python 3's `round` on exact values: round half to even. -/
def pythonRound (q : ℚ) : ℤ :=
  let f : ℤ := ⌊q⌋
  let r : ℚ := q - (f : ℚ)
  if r < 1/2 then f
  else if 1/2 < r then f + 1
  else if f % 2 = 0 then f else f + 1

/-- Minimum of a Python list of ints, with the source's
`if data.get("positions")` guard mapping the empty list to 0. -/
def listMin : List Nat → Nat
  | [] => 0
  | p :: ps => ps.foldl min p

/-- A `{"skill": ..., "weight": ..., "confidence": ...}` payload entry. -/
structure SkillEntry where
  skill : Str
  weight : ℤ
  confidence : ℤ
deriving Repr, DecidableEq

/-- The source line `base_score = 5`. -/
def base_score : ℚ := 5

/-- The source line `frequency_bonus = min(data.get("count", 0) * 0.75, 3)`. -/
def frequency_bonus (count : Nat) : ℚ := min ((count : ℚ) * (3/4)) 3

/-- The source line `relative_position = earliest_position / total_tokens if total_tokens else 0`,
with `earliest_position = min(positions)` (0 for no positions). -/
def relative_position (positions : List Nat) (total_tokens : Nat) : ℚ :=
  if total_tokens ≠ 0 then (listMin positions : ℚ) / (total_tokens : ℚ) else 0

/-- The source line `position_bonus = 1 if relative_position <= 0.2 else 0`. -/
def position_bonus (positions : List Nat) (total_tokens : Nat) : ℚ :=
  if relative_position positions total_tokens ≤ 1/5 then 1 else 0

/-- The source line `context_bonus = min(data.get("context_hits", 0), 2)`. -/
def context_bonus (context_hits : Nat) : Nat := min context_hits 2

/-- The source line `title_bonus = 2 if skill.lower() in normalize_phrase(job_title) else 0`. -/
def title_bonus (skill job_title : Str) : ℚ :=
  if containsSub (toLowerStr skill) (normalize_phrase job_title) then 2 else 0

/-- Model of `_calculate_weight` from `services.py`, with the float arithmetic carried
out in exact rationals. -/
def calculate_weight (skill : Str) (data : SkillStats) (total_tokens : Nat)
    (job_title : Str) : SkillEntry :=
  let w : ℚ := base_score + frequency_bonus data.count
      + position_bonus data.positions total_tokens
      + (context_bonus data.context_hits : ℚ) + title_bonus skill job_title
  let weight : ℤ := min (pythonRound w) 10
  { skill := skill
    weight := weight
    confidence := min 10 (weight + (context_bonus data.context_hits : ℤ)) }

/-- The weight/confidence formula exactly as claim C2 states it, including
clamping the weight to [0, 10] on both sides. -/
def weightFormulaSpec (skill : Str) (occurrenceCount : Nat) (positions : List Nat)
    (contextHits : Nat) (totalTokens : Nat) (title : Str) : ℤ × ℤ :=
  let frequencyBonus : ℚ := min ((occurrenceCount : ℚ) * (3/4)) 3
  let relativePosition : ℚ :=
    if totalTokens = 0 then 0 else (listMin positions : ℚ) / (totalTokens : ℚ)
  let positionBonus : ℚ := if relativePosition ≤ 1/5 then 1 else 0
  let contextBonus : ℚ := min (contextHits : ℚ) 2
  let titleBonus : ℚ :=
    if containsSub (toLowerStr skill) (normalize_phrase title) then 2 else 0
  let weight : ℤ :=
    max 0 (min (pythonRound (5 + frequencyBonus + positionBonus + contextBonus + titleBonus)) 10)
  (weight, min 10 (weight + min (contextHits : ℤ) 2))

/-- The narrower emphasis-keyword subset hard-coded in
`extract_skills_dictionary`'s context-window scan. -/
def DICT_CONTEXT_KEYWORDS : List Str :=
  ["required".toList, "essential".toList, "must".toList, "need".toList,
   "important".toList]

/-- Occurrence scan for a nonempty needle:
`re.finditer(re.escape(skill_key), normalized_text)` start offsets
(non-overlapping, left to right). -/
def findOccAux (needle : Str) : Str → Nat → List Nat
  | [], _ => []
  | c :: t, off =>
    if isLeadingSeg needle (c :: t) then
      off :: findOccAux needle (t.drop (needle.length - 1)) (off + needle.length)
    else
      findOccAux needle t (off + 1)
termination_by hay _ => hay.length
decreasing_by
  · simp only [List.length_drop, List.length_cons]; omega
  · simp only [List.length_cons]; omega

/-- All `re.finditer` match positions of a literal needle (the empty pattern
matches at every offset, as in Python). -/
def findOccurrences (needle hay : Str) : List Nat :=
  if needle = [] then List.range (hay.length + 1)
  else findOccAux needle hay 0

/-- The context-window scan of `extract_skills_dictionary`: for each
occurrence, inspect the window of 50 characters before and after the match
(clamped to the text bounds) and count a hit when one of the narrower
keyword subset occurs in it. -/
def countContextHits (keyLen : Nat) (ntext : Str) (occ : List Nat) : Nat :=
  occ.foldl
    (fun acc pos =>
      let start := pos - 50
      let stop := min ntext.length (pos + keyLen + 50)
      let context := (ntext.drop start).take (stop - start)
      if DICT_CONTEXT_KEYWORDS.any (fun k => containsSub k context) then acc + 1
      else acc)
    0

/-- Word counting for `len(normalized_text.split())`: the flag records
whether the previous character was inside a word. -/
def countWordsAux : Bool → Str → Nat
  | _, [] => 0
  | inWord, c :: t =>
    if isSpaceChar c then countWordsAux false t
    else (if inWord then 0 else 1) + countWordsAux true t

/-- Word count `len(text.split())`. -/
def countWords (s : Str) : Nat := countWordsAux false s

/-- Stable insertion of an entry into a weight-descending list (the entry
goes after every entry of weight ≥ its own), mirroring Python's stable
`sort(key=weight, reverse=True)`. -/
def insertByWeight (x : SkillEntry) : List SkillEntry → List SkillEntry
  | [] => [x]
  | y :: ys => if y.weight < x.weight then x :: y :: ys else y :: insertByWeight x ys

/-- Stable descending sort by weight. -/
def sortByWeightDesc (l : List SkillEntry) : List SkillEntry :=
  l.foldl (fun acc x => insertByWeight x acc) []

/-- The `stats` mapping built by `extract_skills_dictionary`'s scan loop over
the dictionary keys (a `defaultdict` keyed by canonical name, insertion
ordered): `count` and `positions` are assigned from the occurrence list, and
`context_hits` accumulates the window scan's hits. -/
def dictStats (lookup : List (Str × Str)) (normalized_text : Str) :
    List (Str × SkillStats) :=
  lookup.foldl
    (fun st kv =>
      if findOccurrences kv.1 normalized_text = [] then st
      else
        updateAssoc
          (fun e =>
            { count := (findOccurrences kv.1 normalized_text).length
              positions := findOccurrences kv.1 normalized_text
              context_hits := e.context_hits
                  + countContextHits kv.1.length normalized_text
                      (findOccurrences kv.1 normalized_text) })
          st kv.2)
    []

/-- Scoring, stable descending sort by weight, and truncation — the common
tail of both extraction strategies. -/
def scoreAndRank (stats : List (Str × SkillStats)) (total_tokens : Nat)
    (job_title : Str) (max_skills : Nat) : List SkillEntry :=
  (sortByWeightDesc (stats.map fun p => calculate_weight p.1 p.2 total_tokens job_title)).take
    max_skills

/-- Model of `extract_skills_dictionary` from `services.py`. -/
def extract_skills_dictionary (lookup : List (Str × Str)) (text job_title : Str)
    (max_skills : Nat) : List SkillEntry :=
  if text = [] then []
  else
    if dictStats lookup (normalize_phrase text) = [] then []
    else
      scoreAndRank (dictStats lookup (normalize_phrase text))
        (countWords (normalize_phrase text)) job_title max_skills

/-- One (phrase, position, enclosing sentence) signal triple read from the
linguistic model's document. -/
structure Triple where
  text : Str
  start : Nat
  sent : Str

/-- Abstract view of a spaCy document: the total token count together with
the three signal sources `extract_skills_with_nlp` reads from it — named
entities (`ent.text`, `ent.start`, `ent.sent.text`), noun chunks
(`chunk.text`, `chunk.start`, `chunk.sent.text`) and the lemmas of the
NOUN/PROPN tokens (`token.lemma_`, `token.i`, `token.sent.text`). -/
structure NlpDoc where
  totalTokens : Nat
  ents : List Triple
  chunks : List Triple
  nounTokens : List Triple

/-- Feeding one signal source into the statistics accumulator: resolve each
phrase via the canonical resolver, then update that skill's statistics. -/
def accumulateStats (lookup : List (Str × Str)) (stats : List (Str × SkillStats))
    (source : List Triple) : List (Str × SkillStats) :=
  source.foldl
    (fun st tr =>
      match find_canonical_skill lookup tr.text with
      | some skill => update_skill_stats st skill tr.start tr.sent
      | none => st)
    stats

/-- The statistics mapping `extract_skills_with_nlp` builds from the three
signal sources, in source order. -/
def nlpStats (lookup : List (Str × Str)) (doc : NlpDoc) : List (Str × SkillStats) :=
  accumulateStats lookup
    (accumulateStats lookup (accumulateStats lookup [] doc.ents) doc.chunks)
    doc.nounTokens

/-- Model of `extract_skills_with_nlp` from `services.py`; `nlp = none` models
`get_nlp()` returning no model (spaCy missing or failing to load). -/
def extract_skills_with_nlp (lookup : List (Str × Str)) (nlp : Option (Str → NlpDoc))
    (text job_title : Str) (max_skills : Nat) : List SkillEntry :=
  if text = [] then []
  else
    match nlp with
    | none => extract_skills_dictionary lookup text job_title max_skills
    | some model =>
      if nlpStats lookup (model text) = [] then
        extract_skills_dictionary lookup text job_title max_skills
      else
        scoreAndRank (nlpStats lookup (model text)) (model text).totalTokens
          job_title max_skills

/-- Model of `extract_skills`: the public facade choosing the strategy. -/
def extract_skills (lookup : List (Str × Str)) (nlp : Option (Str → NlpDoc))
    (text job_title : Str) (max_skills : Nat) (force_dictionary : Bool) :
    List SkillEntry :=
  if force_dictionary then extract_skills_dictionary lookup text job_title max_skills
  else extract_skills_with_nlp lookup nlp text job_title max_skills

/-- Model of `extract_candidate_skills`: the candidate-material convenience wrapper
(empty job title). -/
def extract_candidate_skills (lookup : List (Str × Str)) (nlp : Option (Str → NlpDoc))
    (text : Str) (max_skills : Nat) : List SkillEntry :=
  extract_skills lookup nlp text [] max_skills false

/-- A persisted `CandidateSkill` row of one user. -/
structure CandidateSkillRow where
  skill_name : Str
  source : Str
  confidence : ℤ
deriving Repr, DecidableEq

/-- Model of `CandidateSkill.objects.update_or_create(user=..., skill_name=...,
source=..., defaults={"confidence": ...})` for a fixed user: update the
confidence of the row with that (skill, source) key, or append a new row;
also returns the affected row. -/
def upsertCandidateSkill : List CandidateSkillRow → Str → Str → ℤ →
    List CandidateSkillRow × CandidateSkillRow
  | [], name, src, conf => ([⟨name, src, conf⟩], ⟨name, src, conf⟩)
  | r :: rest, name, src, conf =>
    if r.skill_name = name ∧ r.source = src then
      ({ r with confidence := conf } :: rest, { r with confidence := conf })
    else
      (r :: (upsertCandidateSkill rest name src conf).1,
       (upsertCandidateSkill rest name src conf).2)

/-- The loop body of `save_candidate_skills_from_text`: skip payload entries
below `min_weight`, otherwise upsert and record the saved row. -/
def saveCandidateFold (source : Str) (min_weight : ℤ)
    (acc : List CandidateSkillRow × List CandidateSkillRow) (payload : SkillEntry) :
    List CandidateSkillRow × List CandidateSkillRow :=
  if payload.weight < min_weight then acc
  else
    ((upsertCandidateSkill acc.1 payload.skill source payload.confidence).1,
     acc.2 ++ [(upsertCandidateSkill acc.1 payload.skill source payload.confidence).2])

/-- Model of `save_candidate_skills_from_text` from `services.py`, as a transformer of
the user's persisted candidate-skill rows; returns the new rows together
with the list of saved rows. -/
def save_candidate_skills_from_text (lookup : List (Str × Str))
    (nlp : Option (Str → NlpDoc)) (rows : List CandidateSkillRow) (text : Str)
    (source : Str) (max_skills : Nat) (min_weight : ℤ) :
    List CandidateSkillRow × List CandidateSkillRow :=
  if text = [] then (rows, [])
  else
    let skills_payload := extract_candidate_skills lookup nlp text max_skills
    skills_payload.foldl (saveCandidateFold source min_weight) (rows, [])

/-- The persisted state of one `Job` row together with its `JobSkill` rows
(pairs of skill name and weight). -/
structure JobState where
  description : Str
  title : Str
  skills_extracted : Bool
  jobSkills : List (Str × ℤ)
deriving Repr, DecidableEq

/-- Model of `save_job_skills` from `services.py`: on an empty description only the
`skills_extracted` flag is written; otherwise extract, delete all existing
`JobSkill` rows, insert one row per payload entry, and set
`skills_extracted = bool(skills_payload)`. -/
def save_job_skills (lookup : List (Str × Str)) (nlp : Option (Str → NlpDoc))
    (job : JobState) (force_dictionary : Bool) (max_skills : Nat) :
    JobState × List SkillEntry :=
  if job.description = [] then
    ({ job with skills_extracted := false }, [])
  else
    let skills_payload :=
      extract_skills lookup nlp job.description job.title max_skills force_dictionary
    ({ job with
        jobSkills := skills_payload.map (fun p => (p.skill, p.weight))
        skills_extracted := !skills_payload.isEmpty },
     skills_payload)

/-- Python dict insertion with overwrite, preserving first-insertion key
order. -/
def dictInsert {α : Type} : List (Str × α) → Str → α → List (Str × α)
  | [], k, v => [(k, v)]
  | (k', v') :: rest, k, v =>
    if k' = k then (k', v) :: rest else (k', v') :: dictInsert rest k v

/-- Python dict lookup. -/
def dictFind {α : Type} : List (Str × α) → Str → Option α
  | [], _ => none
  | (k', v) :: rest, k => if k' = k then some v else dictFind rest k

/-- One candidate of the company's applicant pool with the prefetched
`candidate_skills` rows. -/
structure Candidate where
  candidateId : Nat
  skills : List CandidateSkillRow
deriving Repr, DecidableEq

/-- One entry of the candidate-match payload. -/
structure MatchResult where
  candidateId : Nat
  fit_score : ℚ
  matched_weight : ℤ
  total_weight : ℤ
  matched_skills : List Str
deriving Repr, DecidableEq

/-- Python's `round(x, 1)` on exact values. -/
def roundTo1 (q : ℚ) : ℚ := (pythonRound (q * 10) : ℚ) / 10

/-- Stable insertion into a fit-score-descending list, mirroring Python's
stable `sort(key=fit_score, reverse=True)`. -/
def insertByFit (x : MatchResult) : List MatchResult → List MatchResult
  | [] => [x]
  | y :: ys => if y.fit_score < x.fit_score then x :: y :: ys else y :: insertByFit x ys

/-- Stable descending sort by fit score. -/
def sortByFitDesc (l : List MatchResult) : List MatchResult :=
  l.foldl (fun acc x => insertByFit x acc) []

/-- The lookup `\x7bskill.skill_name.lower(): skill.weight for skill in job_skills\x7d`. -/
def jobSkillLookup (jobSkills : List (Str × ℤ)) : List (Str × ℤ) :=
  jobSkills.foldl (fun d p => dictInsert d (toLowerStr p.1) p.2) []

/-- The lookup `\x7bcs.skill_name.lower(): cs for cs in candidate_skills\x7d`. -/
def candidateSkillLookup (skills : List CandidateSkillRow) :
    List (Str × CandidateSkillRow) :=
  skills.foldl (fun d cs => dictInsert d (toLowerStr cs.skill_name) cs) []

/-- The matched-weight / matched-names loop of
`build_candidate_match_payload`: iterate over the job lookup's items, and for
every key present in the candidate lookup add the job-side weight and record
the candidate's stored skill name. -/
def matchedFoldAux (candLookup : List (Str × CandidateSkillRow)) :
    List (Str × ℤ) → ℤ × List Str → ℤ × List Str
  | [], acc => acc
  | kv :: rest, acc =>
    match dictFind candLookup kv.1 with
    | some cs => matchedFoldAux candLookup rest (acc.1 + kv.2, acc.2 ++ [cs.skill_name])
    | none => matchedFoldAux candLookup rest acc

/-- The matched weight and matched skill names for one candidate. -/
def matchedFold (jobLookup : List (Str × ℤ))
    (candLookup : List (Str × CandidateSkillRow)) : ℤ × List Str :=
  matchedFoldAux candLookup jobLookup (0, [])

/-- Sum of the values of an association list (dict) with integer values. -/
def dictSum (d : List (Str × ℤ)) : ℤ := (d.map Prod.snd).sum

/-- The source line `total_weight = sum(skill.weight for skill in job_skills) or 1`. -/
def totalWeightOf (jobSkills : List (Str × ℤ)) : ℤ :=
  if (jobSkills.map Prod.snd).sum = 0 then 1 else (jobSkills.map Prod.snd).sum

/-- The per-candidate loop body of `build_candidate_match_payload`: skip
candidates with no skills, compute the case-insensitive intersection's
matched weight and names, skip below-threshold candidates, and append a
match entry otherwise. -/
def matchStep (jobLookup : List (Str × ℤ)) (total_weight min_match_weight : ℤ)
    (acc : List MatchResult) (candidate : Candidate) : List MatchResult :=
  if candidate.skills = [] then acc
  else
    if (matchedFold jobLookup (candidateSkillLookup candidate.skills)).1
        < min_match_weight then acc
    else
      acc ++ [{ candidateId := candidate.candidateId
                fit_score := roundTo1
                  (((matchedFold jobLookup (candidateSkillLookup candidate.skills)).1 : ℚ)
                    / (total_weight : ℚ) * 100)
                matched_weight :=
                  (matchedFold jobLookup (candidateSkillLookup candidate.skills)).1
                total_weight := total_weight
                matched_skills :=
                  (matchedFold jobLookup (candidateSkillLookup candidate.skills)).2 }]

/-- Model of `build_candidate_match_payload` from `services.py`; the candidate pool
(`get_company_candidate_queryset`) is an explicit parameter. -/
def build_candidate_match_payload (job : JobState) (pool : List Candidate)
    (min_match_weight : ℤ) : List MatchResult :=
  if job.jobSkills = [] then []
  else
    sortByFitDesc
      (pool.foldl
        (matchStep (jobSkillLookup job.jobSkills) (totalWeightOf job.jobSkills)
          min_match_weight)
        [])

theorem lookupAssoc_eq_find (l : List (Str × Str)) (n : Str) :
    lookupAssoc l n = Option.map Prod.snd (l.find? (fun p => decide (p.1 = n))) := by
  induction l with
  | nil => rfl
  | cons p rest ih =>
    obtain ⟨k, v⟩ := p
    by_cases h : k = n
    · simp [lookupAssoc, List.find?, h]
    · simp [lookupAssoc, List.find?, h, ih]

theorem firstContainment_eq_find (l : List (Str × Str)) (n : Str) :
    firstContainment l n =
      Option.map Prod.snd (l.find? (fun p => containsSub p.1 n || containsSub n p.1)) := by
  induction l with
  | nil => rfl
  | cons p rest ih =>
    obtain ⟨k, v⟩ := p
    by_cases h : (containsSub k n || containsSub n k) = true
    · simp [firstContainment, List.find?, h]
    · simp [firstContainment, List.find?, h, ih]

theorem dropWhile_all_space (x : Str) :
    (∀ c ∈ x, isSpaceChar c = true) → x.dropWhile isSpaceChar = [] := by
  induction x with
  | nil => intro _; rfl
  | cons c rest ih =>
    intro h
    have hc : isSpaceChar c = true := h c (List.mem_cons_self c rest)
    simp only [List.dropWhile, hc]
    exact ih (fun d hd => h d (List.mem_cons_of_mem c hd))

theorem normalize_all_space (phrase : Str) (h : ∀ c ∈ phrase, isSpaceChar c = true) :
    normalize_phrase phrase = [] := by
  unfold normalize_phrase
  by_cases hp : phrase = []
  · simp [hp]
  · simp only [hp, if_false]
    unfold stripStr
    rw [dropWhile_all_space phrase h]
    rfl

/-- Claim C5: the canonical resolver normalizes, returns the exact dictionary
match first, otherwise the first containment match in dictionary insertion
order, and none when no key participates; an empty or whitespace-only phrase
always resolves to none. -/
theorem find_canonical_skill_correct (lookup : List (Str × Str)) (phrase : Str) :
    find_canonical_skill lookup phrase = findCanonicalSpec lookup phrase ∧
    ((∀ c ∈ phrase, isSpaceChar c = true) → find_canonical_skill lookup phrase = none) := by
  constructor
  · unfold find_canonical_skill findCanonicalSpec
    by_cases hn : normalize_phrase phrase = []
    · simp [hn]
    · simp only [hn, if_false]
      rw [lookupAssoc_eq_find]
      cases hf : lookup.find? (fun p => decide (p.1 = normalize_phrase phrase)) with
      | none => simp [firstContainment_eq_find]
      | some p => simp
  · intro h
    unfold find_canonical_skill
    simp [normalize_all_space phrase h]

/-- Witness for C5's whitespace-only hypothesis at a concrete phrase and
dictionary. -/
theorem find_canonical_skill_correct_witness :
    find_canonical_skill [("python".toList, "Python".toList)] "  ".toList = none :=
  (find_canonical_skill_correct [("python".toList, "Python".toList)] "  ".toList).2
    (by decide)

theorem floor_le_pythonRound (q : ℚ) : ⌊q⌋ ≤ pythonRound q := by
  simp only [pythonRound]
  split_ifs <;> omega

theorem frequency_bonus_nonneg (c : Nat) : 0 ≤ frequency_bonus c := by
  unfold frequency_bonus
  have h1 : (0 : ℚ) ≤ (c : ℚ) * (3/4) := by positivity
  have h2 : (0 : ℚ) ≤ 3 := by norm_num
  exact le_min h1 h2

theorem position_bonus_nonneg (p : List Nat) (t : Nat) : 0 ≤ position_bonus p t := by
  unfold position_bonus
  split_ifs <;> norm_num

theorem title_bonus_nonneg (s j : Str) : 0 ≤ title_bonus s j := by
  unfold title_bonus
  split_ifs <;> norm_num

theorem weight_pre_round_ge_five (skill : Str) (data : SkillStats) (total_tokens : Nat)
    (job_title : Str) :
    (5 : ℚ) ≤ base_score + frequency_bonus data.count
        + position_bonus data.positions total_tokens
        + (context_bonus data.context_hits : ℚ) + title_bonus skill job_title := by
  have h1 := frequency_bonus_nonneg data.count
  have h2 := position_bonus_nonneg data.positions total_tokens
  have h3 : (0 : ℚ) ≤ (context_bonus data.context_hits : ℚ) := by positivity
  have h4 := title_bonus_nonneg skill job_title
  have h5 : base_score = 5 := rfl
  linarith

theorem five_le_pythonRound_weight (skill : Str) (data : SkillStats) (total_tokens : Nat)
    (job_title : Str) :
    (5 : ℤ) ≤ pythonRound (base_score + frequency_bonus data.count
        + position_bonus data.positions total_tokens
        + (context_bonus data.context_hits : ℚ) + title_bonus skill job_title) := by
  refine le_trans ?_ (floor_le_pythonRound _)
  rw [Int.le_floor]
  exact_mod_cast weight_pre_round_ge_five skill data total_tokens job_title

/-- Shared bounds on the output of `_calculate_weight`: weight lies in
[5, 10], weight never exceeds confidence, and confidence is at most 10. -/
theorem calculate_weight_bounds (skill : Str) (data : SkillStats) (total_tokens : Nat)
    (job_title : Str) :
    5 ≤ (calculate_weight skill data total_tokens job_title).weight ∧
    (calculate_weight skill data total_tokens job_title).weight ≤ 10 ∧
    (calculate_weight skill data total_tokens job_title).weight
      ≤ (calculate_weight skill data total_tokens job_title).confidence ∧
    (calculate_weight skill data total_tokens job_title).confidence ≤ 10 := by
  have h5 := five_le_pythonRound_weight skill data total_tokens job_title
  simp only [calculate_weight]
  refine ⟨le_min h5 (by norm_num), min_le_right _ _, ?_, min_le_left _ _⟩
  refine le_min (min_le_right _ _) ?_
  have hc : (0 : ℤ) ≤ (context_bonus data.context_hits : ℤ) := by positivity
  omega

/-- Claim C2: `_calculate_weight` computes exactly the claimed formula
`weight = round(5 + min(count*0.75, 3) + positionBonus + min(contextHits, 2)
+ titleBonus)` clamped to [0,10], and
`confidence = min(10, weight + min(contextHits, 2))`. -/
theorem calculate_weight_matches_formula (skill : Str) (data : SkillStats)
    (total_tokens : Nat) (job_title : Str) :
    (calculate_weight skill data total_tokens job_title).weight
      = (weightFormulaSpec skill data.count data.positions data.context_hits
          total_tokens job_title).1 ∧
    (calculate_weight skill data total_tokens job_title).confidence
      = (weightFormulaSpec skill data.count data.positions data.context_hits
          total_tokens job_title).2 := by
  have hctx : ((context_bonus data.context_hits : ℕ) : ℚ) = min (data.context_hits : ℚ) 2 := by
    unfold context_bonus
    push_cast [Nat.cast_min]
    norm_num
  have hctxZ : ((context_bonus data.context_hits : ℕ) : ℤ) = min (data.context_hits : ℤ) 2 := by
    unfold context_bonus
    push_cast [Nat.cast_min]
    norm_num
  have hrel : relative_position data.positions total_tokens
      = (if total_tokens = 0 then 0
         else (listMin data.positions : ℚ) / (total_tokens : ℚ)) := by
    unfold relative_position
    by_cases h : total_tokens = 0 <;> simp [h]
  have hW : base_score + frequency_bonus data.count
      + position_bonus data.positions total_tokens
      + (context_bonus data.context_hits : ℚ) + title_bonus skill job_title
      = 5 + min ((data.count : ℚ) * (3/4)) 3
        + (if (if total_tokens = 0 then 0
               else (listMin data.positions : ℚ) / (total_tokens : ℚ)) ≤ 1/5 then 1 else 0)
        + min (data.context_hits : ℚ) 2
        + (if containsSub (toLowerStr skill) (normalize_phrase job_title) then 2 else 0) := by
    rw [hctx]
    unfold base_score frequency_bonus position_bonus title_bonus
    rw [hrel]
  have h5 := five_le_pythonRound_weight skill data total_tokens job_title
  constructor
  · simp only [calculate_weight, weightFormulaSpec]
    rw [← hW]
    exact (max_eq_right (by omega)).symm
  · simp only [calculate_weight, weightFormulaSpec]
    rw [← hW, ← hctxZ, max_eq_right (a := (0 : ℤ)) (by omega)]

/-- Claim C8: for every title, maxSkills and forceDictionary flag, extracting from
empty text returns the empty sequence on both strategy paths (and, being a
total function, raises no error). -/
theorem extract_skills_empty_text (lookup : List (Str × Str))
    (nlp : Option (Str → NlpDoc)) (job_title : Str) (max_skills : Nat)
    (force_dictionary : Bool) :
    extract_skills lookup nlp [] job_title max_skills force_dictionary = [] := by
  cases force_dictionary <;>
    simp [extract_skills, extract_skills_with_nlp, extract_skills_dictionary]

/-- Claim C10: saving candidate skills from empty text returns the empty list and
leaves the user's persisted candidate-skill rows entirely unchanged (no
clearing, no upsert). -/
theorem save_candidate_skills_empty_text (lookup : List (Str × Str))
    (nlp : Option (Str → NlpDoc)) (rows : List CandidateSkillRow) (source : Str)
    (max_skills : Nat) (min_weight : ℤ) :
    save_candidate_skills_from_text lookup nlp rows [] source max_skills min_weight
      = (rows, []) := by
  simp [save_candidate_skills_from_text]

/-- Claim C1 counterexample: for a job with empty description and a pre-existing
stored skill, `save_job_skills` returns the empty payload but the stale
`JobSkill` row survives — the prior skill set is not cleared. -/
theorem save_job_skills_stale_counterexample :
    (save_job_skills [] none ⟨[], [], true, [("python".toList, 7)]⟩ false 15).2 = [] ∧
    (save_job_skills [] none ⟨[], [], true, [("python".toList, 7)]⟩ false 15).1.jobSkills
      ≠ [] := by
  constructor
  · decide
  · decide

/-- Claim C1 amended: for every job whose description is empty, `save_job_skills`
returns an empty sequence and performs no write to the stored skill set at
all — the prior `JobSkill` rows survive unchanged — and only the job's
`skills_extracted` flag is cleared. -/
theorem save_job_skills_empty_description (lookup : List (Str × Str))
    (nlp : Option (Str → NlpDoc)) (job : JobState) (force_dictionary : Bool)
    (max_skills : Nat) (h : job.description = []) :
    (save_job_skills lookup nlp job force_dictionary max_skills).2 = [] ∧
    (save_job_skills lookup nlp job force_dictionary max_skills).1.jobSkills
      = job.jobSkills ∧
    (save_job_skills lookup nlp job force_dictionary max_skills).1.skills_extracted
      = false := by
  simp [save_job_skills, h]

/-- Witness for C1's amended theorem at a concrete job with a stale row. -/
theorem save_job_skills_empty_description_witness :
    (save_job_skills [] none ⟨[], [], true, [("python".toList, 7)]⟩ false 15).2 = [] ∧
    (save_job_skills [] none ⟨[], [], true, [("python".toList, 7)]⟩ false 15).1.jobSkills
      = [("python".toList, 7)] ∧
    (save_job_skills [] none ⟨[], [], true, [("python".toList, 7)]⟩ false
        15).1.skills_extracted = false :=
  save_job_skills_empty_description [] none ⟨[], [], true, [("python".toList, 7)]⟩
    false 15 rfl

/-- Claim C7: a job whose persisted skill set is empty yields no match results for
any candidate pool. -/
theorem build_matches_empty_job_skills (job : JobState) (pool : List Candidate)
    (min_match_weight : ℤ) (h : job.jobSkills = []) :
    build_candidate_match_payload job pool min_match_weight = [] := by
  simp [build_candidate_match_payload, h]

/-- Witness for C7 at a concrete job and a non-empty candidate pool. -/
theorem build_matches_empty_job_skills_witness :
    build_candidate_match_payload ⟨"d".toList, [], false, []⟩
      [⟨1, [⟨"python".toList, "resume".toList, 9⟩]⟩] 1 = [] :=
  build_matches_empty_job_skills ⟨"d".toList, [], false, []⟩
    [⟨1, [⟨"python".toList, "resume".toList, 9⟩]⟩] 1 rfl

/-- Claim C6: for non-empty text, when the linguistic model is unavailable, or when
its three signal sources yield an empty statistics mapping, the linguistic
extractor returns exactly the dictionary extractor's result on the same
text, title and maxSkills. -/
theorem nlp_extractor_falls_back (lookup : List (Str × Str))
    (nlp : Option (Str → NlpDoc)) (text job_title : Str) (max_skills : Nat)
    (ht : text ≠ [])
    (h : nlp = none ∨ ∃ model, nlp = some model ∧ nlpStats lookup (model text) = []) :
    extract_skills_with_nlp lookup nlp text job_title max_skills
      = extract_skills_dictionary lookup text job_title max_skills := by
  rcases h with rfl | ⟨model, rfl, hstats⟩
  · simp [extract_skills_with_nlp, ht]
  · simp [extract_skills_with_nlp, ht, hstats]

/-- Witness for C6 with the model unavailable on concrete inputs. -/
theorem nlp_extractor_falls_back_witness :
    extract_skills_with_nlp [("python".toList, "Python".toList)] none "x".toList [] 15
      = extract_skills_dictionary [("python".toList, "Python".toList)] "x".toList [] 15 :=
  nlp_extractor_falls_back [("python".toList, "Python".toList)] none "x".toList [] 15
    (by decide) (Or.inl rfl)

theorem mem_insertByWeight (x y : SkillEntry) (l : List SkillEntry) :
    y ∈ insertByWeight x l ↔ y = x ∨ y ∈ l := by
  induction l with
  | nil => simp [insertByWeight]
  | cons z zs ih =>
    simp only [insertByWeight]
    split_ifs
    · simp [List.mem_cons]
    · simp only [List.mem_cons, ih]
      tauto

theorem mem_sortByWeightFold (l : List SkillEntry) :
    ∀ (acc : List SkillEntry) (y : SkillEntry),
      y ∈ l.foldl (fun a x => insertByWeight x a) acc ↔ y ∈ acc ∨ y ∈ l := by
  induction l with
  | nil => intro acc y; simp
  | cons x xs ih =>
    intro acc y
    simp only [List.foldl_cons]
    rw [ih (insertByWeight x acc) y]
    rw [mem_insertByWeight]
    simp only [List.mem_cons]
    tauto

theorem mem_sortByWeightDesc (l : List SkillEntry) (y : SkillEntry) :
    y ∈ sortByWeightDesc l ↔ y ∈ l := by
  unfold sortByWeightDesc
  rw [mem_sortByWeightFold]
  simp

theorem scoreAndRank_shape (stats : List (Str × SkillStats)) (tt : Nat)
    (job_title : Str) (ms : Nat) :
    (scoreAndRank stats tt job_title ms).length ≤ ms ∧
    ∀ e ∈ scoreAndRank stats tt job_title ms,
      ∃ sk data, e = calculate_weight sk data tt job_title := by
  constructor
  · exact List.length_take_le ms _
  · intro e he
    have h1 : e ∈ sortByWeightDesc
        (stats.map fun p => calculate_weight p.1 p.2 tt job_title) :=
      List.take_subset _ _ he
    rw [mem_sortByWeightDesc] at h1
    obtain ⟨p, _, rfl⟩ := List.mem_map.mp h1
    exact ⟨p.1, p.2, rfl⟩

theorem extract_skills_dictionary_shape (lookup : List (Str × Str))
    (text job_title : Str) (max_skills : Nat) :
    (extract_skills_dictionary lookup text job_title max_skills).length ≤ max_skills ∧
    ∀ e ∈ extract_skills_dictionary lookup text job_title max_skills,
      ∃ sk data tt, e = calculate_weight sk data tt job_title := by
  unfold extract_skills_dictionary
  split_ifs
  · simp
  · simp
  · obtain ⟨hl, hm⟩ := scoreAndRank_shape (dictStats lookup (normalize_phrase text))
      (countWords (normalize_phrase text)) job_title max_skills
    refine ⟨hl, fun e he => ?_⟩
    obtain ⟨sk, data, h⟩ := hm e he
    exact ⟨sk, data, _, h⟩

theorem extract_skills_with_nlp_shape (lookup : List (Str × Str))
    (nlp : Option (Str → NlpDoc)) (text job_title : Str) (max_skills : Nat) :
    (extract_skills_with_nlp lookup nlp text job_title max_skills).length ≤ max_skills ∧
    ∀ e ∈ extract_skills_with_nlp lookup nlp text job_title max_skills,
      ∃ sk data tt, e = calculate_weight sk data tt job_title := by
  unfold extract_skills_with_nlp
  by_cases ht : text = []
  · simp [ht]
  · simp only [ht, if_false]
    cases nlp with
    | none => exact extract_skills_dictionary_shape lookup text job_title max_skills
    | some model =>
      by_cases hs : nlpStats lookup (model text) = []
      · simp only [hs, if_true]
        exact extract_skills_dictionary_shape lookup text job_title max_skills
      · simp only [hs, if_false]
        obtain ⟨hl, hm⟩ := scoreAndRank_shape (nlpStats lookup (model text))
          (model text).totalTokens job_title max_skills
        refine ⟨hl, fun e he => ?_⟩
        obtain ⟨sk, data, h⟩ := hm e he
        exact ⟨sk, data, _, h⟩

theorem extract_skills_shape (lookup : List (Str × Str))
    (nlp : Option (Str → NlpDoc)) (text job_title : Str) (max_skills : Nat)
    (force_dictionary : Bool) :
    (extract_skills lookup nlp text job_title max_skills force_dictionary).length
      ≤ max_skills ∧
    ∀ e ∈ extract_skills lookup nlp text job_title max_skills force_dictionary,
      ∃ sk data tt, e = calculate_weight sk data tt job_title := by
  unfold extract_skills
  cases force_dictionary with
  | false =>
    simp only [Bool.false_eq_true, if_false]
    exact extract_skills_with_nlp_shape lookup nlp text job_title max_skills
  | true =>
    simp only [if_true]
    exact extract_skills_dictionary_shape lookup text job_title max_skills

/-- Claim C3: for every text, title and maxSkills (and strategy choice, model
included), `extract_skills` returns at most maxSkills entries, every one with
weight and confidence in [0, 10]. -/
theorem extract_skills_bounded (lookup : List (Str × Str))
    (nlp : Option (Str → NlpDoc)) (text job_title : Str) (max_skills : Nat)
    (force_dictionary : Bool) :
    (extract_skills lookup nlp text job_title max_skills force_dictionary).length
      ≤ max_skills ∧
    (extract_skills lookup nlp text job_title max_skills force_dictionary).all
      (fun e => decide (0 ≤ e.weight ∧ e.weight ≤ 10
        ∧ 0 ≤ e.confidence ∧ e.confidence ≤ 10)) = true := by
  obtain ⟨hl, hm⟩ :=
    extract_skills_shape lookup nlp text job_title max_skills force_dictionary
  refine ⟨hl, ?_⟩
  rw [List.all_eq_true]
  intro e he
  obtain ⟨sk, data, tt, rfl⟩ := hm e he
  obtain ⟨h1, h2, h3, h4⟩ := calculate_weight_bounds sk data tt job_title
  simp only [decide_eq_true_eq]
  omega

theorem saveFold_length (source : Str) (payload : List SkillEntry) :
    ∀ (rows saved : List CandidateSkillRow),
      (∀ p ∈ payload, ¬(p.weight < 5)) →
      ((payload.foldl (saveCandidateFold source 5) (rows, saved)).2).length
        = saved.length + payload.length := by
  induction payload with
  | nil => intro rows saved _; simp
  | cons p ps ih =>
    intro rows saved h
    have hp : ¬(p.weight < 5) := h p (List.mem_cons_self p ps)
    have hstep : saveCandidateFold source 5 (rows, saved) p
        = ((upsertCandidateSkill rows p.skill source p.confidence).1,
           saved ++ [(upsertCandidateSkill rows p.skill source p.confidence).2]) := by
      simp [saveCandidateFold, hp]
    simp only [List.foldl_cons, hstep]
    rw [ih _ _ (fun q hq => h q (List.mem_cons_of_mem p hq))]
    simp only [List.length_append, List.length_cons, List.length_nil]
    omega

/-- Claim C9: every entry either strategy produces has weight at least 5 and
confidence at least its weight (hence both in [5, 10]); consequently saving
candidate skills with the default minimum weight 5 filters out nothing —
one row is saved per extracted entry. -/
theorem extracted_entries_above_default_threshold (lookup : List (Str × Str))
    (nlp : Option (Str → NlpDoc)) (text job_title : Str) (max_skills : Nat)
    (force_dictionary : Bool) (rows : List CandidateSkillRow) (source : Str) :
    (extract_skills lookup nlp text job_title max_skills force_dictionary).all
      (fun e => decide (5 ≤ e.weight ∧ e.weight ≤ e.confidence
        ∧ e.confidence ≤ 10)) = true ∧
    ((save_candidate_skills_from_text lookup nlp rows text source max_skills 5).2).length
      = (extract_candidate_skills lookup nlp text max_skills).length := by
  constructor
  · obtain ⟨_, hm⟩ :=
      extract_skills_shape lookup nlp text job_title max_skills force_dictionary
    rw [List.all_eq_true]
    intro e he
    obtain ⟨sk, data, tt, rfl⟩ := hm e he
    obtain ⟨h1, h2, h3, h4⟩ := calculate_weight_bounds sk data tt job_title
    simp only [decide_eq_true_eq]
    omega
  · by_cases ht : text = []
    · subst ht
      rw [save_candidate_skills_empty_text]
      unfold extract_candidate_skills
      rw [extract_skills_empty_text]
      rfl
    · unfold save_candidate_skills_from_text
      rw [if_neg ht]
      have hall : ∀ p ∈ extract_candidate_skills lookup nlp text max_skills,
          ¬(p.weight < 5) := by
        intro p hp
        obtain ⟨_, hm⟩ := extract_skills_shape lookup nlp text [] max_skills false
        obtain ⟨sk, data, tt, rfl⟩ := hm p hp
        obtain ⟨h1, _, _, _⟩ := calculate_weight_bounds sk data tt []
        omega
      rw [saveFold_length source _ rows [] hall]
      simp

theorem mem_insertByFit (x y : MatchResult) (l : List MatchResult) :
    y ∈ insertByFit x l ↔ y = x ∨ y ∈ l := by
  induction l with
  | nil => simp [insertByFit]
  | cons z zs ih =>
    simp only [insertByFit]
    split_ifs
    · simp [List.mem_cons]
    · simp only [List.mem_cons, ih]
      tauto

theorem mem_sortByFitFold (l : List MatchResult) :
    ∀ (acc : List MatchResult) (y : MatchResult),
      y ∈ l.foldl (fun a x => insertByFit x a) acc ↔ y ∈ acc ∨ y ∈ l := by
  induction l with
  | nil => intro acc y; simp
  | cons x xs ih =>
    intro acc y
    simp only [List.foldl_cons]
    rw [ih (insertByFit x acc) y]
    rw [mem_insertByFit]
    simp only [List.mem_cons]
    tauto

theorem mem_sortByFitDesc (l : List MatchResult) (y : MatchResult) :
    y ∈ sortByFitDesc l ↔ y ∈ l := by
  unfold sortByFitDesc
  rw [mem_sortByFitFold]
  simp

theorem pythonRound_nonneg (q : ℚ) (h : 0 ≤ q) : 0 ≤ pythonRound q :=
  le_trans (Int.floor_nonneg.mpr h) (floor_le_pythonRound q)

theorem pythonRound_le_of_le (q : ℚ) (n : ℤ) (h : q ≤ (n : ℚ)) :
    pythonRound q ≤ n := by
  have hfl : ⌊q⌋ ≤ n := by
    have := Int.floor_le_floor h
    rwa [Int.floor_intCast] at this
  simp only [pythonRound]
  split_ifs with h1 h2 h3
  · exact hfl
  · have hq : (⌊q⌋ : ℚ) < (n : ℚ) := by
      have hfq := Int.floor_le q
      linarith
    have : ⌊q⌋ < n := by exact_mod_cast hq
    omega
  · exact hfl
  · have hr1 : (1 : ℚ)/2 ≤ q - (⌊q⌋ : ℚ) := not_lt.mp h1
    have hq : (⌊q⌋ : ℚ) < (n : ℚ) := by linarith
    have : ⌊q⌋ < n := by exact_mod_cast hq
    omega

theorem roundTo1_bounds (q : ℚ) (h0 : 0 ≤ q) (h100 : q ≤ 100) :
    0 ≤ roundTo1 q ∧ roundTo1 q ≤ 100 := by
  unfold roundTo1
  have h1 : 0 ≤ pythonRound (q * 10) := pythonRound_nonneg _ (by positivity)
  have h2 : pythonRound (q * 10) ≤ 1000 := by
    apply pythonRound_le_of_le
    push_cast
    linarith
  have h1q : (0 : ℚ) ≤ (pythonRound (q * 10) : ℚ) := by exact_mod_cast h1
  have h2q : ((pythonRound (q * 10) : ℤ) : ℚ) ≤ 1000 := by exact_mod_cast h2
  constructor
  · exact div_nonneg h1q (by norm_num)
  · rw [div_le_iff₀ (by norm_num : (0:ℚ) < 10)]
    linarith

theorem dictInsert_forall {α : Type} (P : Str × α → Prop) (d : List (Str × α))
    (k : Str) (v : α) :
    (∀ x ∈ d, P x) → P (k, v) → ∀ x ∈ dictInsert d k v, P x := by
  induction d with
  | nil =>
    intro _ hv x hx
    simp only [dictInsert, List.mem_singleton] at hx
    exact hx ▸ hv
  | cons p rest ih =>
    obtain ⟨k', v'⟩ := p
    intro hd hv x hx
    simp only [dictInsert] at hx
    split_ifs at hx with hk
    · rcases List.mem_cons.mp hx with h | h
      · subst hk
        exact h ▸ hv
      · exact hd x (List.mem_cons_of_mem _ h)
    · rcases List.mem_cons.mp hx with h | h
      · exact h ▸ hd (k', v') (List.mem_cons_self _ _)
      · exact ih (fun y hy => hd y (List.mem_cons_of_mem _ hy)) hv x h

theorem dictSum_cons (p : Str × ℤ) (l : List (Str × ℤ)) :
    dictSum (p :: l) = p.2 + dictSum l := by
  simp [dictSum]

theorem dictSum_insert_le (d : List (Str × ℤ)) (k : Str) (v : ℤ) :
    (∀ x ∈ d, 0 ≤ x.2) → dictSum (dictInsert d k v) ≤ dictSum d + v := by
  induction d with
  | nil => intro _; simp [dictSum, dictInsert]
  | cons p rest ih =>
    obtain ⟨k', v'⟩ := p
    intro hd
    have hv' : (0 : ℤ) ≤ v' := hd (k', v') (List.mem_cons_self _ _)
    simp only [dictInsert]
    split_ifs with hk
    · rw [dictSum_cons, dictSum_cons]
      simp only
      omega
    · rw [dictSum_cons, dictSum_cons]
      have := ih (fun x hx => hd x (List.mem_cons_of_mem _ hx))
      simp only
      omega

theorem jobSkillLookup_fold_facts (jobSkills : List (Str × ℤ)) :
    ∀ (d : List (Str × ℤ)),
      (∀ x ∈ d, 0 ≤ x.2) → (∀ p ∈ jobSkills, 0 ≤ p.2) →
      (∀ x ∈ jobSkills.foldl (fun d p => dictInsert d (toLowerStr p.1) p.2) d, 0 ≤ x.2) ∧
      dictSum (jobSkills.foldl (fun d p => dictInsert d (toLowerStr p.1) p.2) d)
        ≤ dictSum d + (jobSkills.map Prod.snd).sum := by
  induction jobSkills with
  | nil =>
    intro d hd _
    simpa using hd
  | cons p ps ih =>
    intro d hd hp
    simp only [List.foldl_cons]
    have hp0 : (0 : ℤ) ≤ p.2 := hp p (List.mem_cons_self _ _)
    have hd' : ∀ x ∈ dictInsert d (toLowerStr p.1) p.2, 0 ≤ x.2 :=
      dictInsert_forall (fun x => 0 ≤ x.2) d (toLowerStr p.1) p.2 hd hp0
    obtain ⟨h1, h2⟩ := ih (dictInsert d (toLowerStr p.1) p.2) hd'
      (fun q hq => hp q (List.mem_cons_of_mem _ hq))
    refine ⟨h1, ?_⟩
    have h3 := dictSum_insert_le d (toLowerStr p.1) p.2 hd
    simp only [List.map_cons, List.sum_cons]
    omega

theorem jobSkillLookup_facts (jobSkills : List (Str × ℤ))
    (h : ∀ p ∈ jobSkills, 0 ≤ p.2) :
    (∀ x ∈ jobSkillLookup jobSkills, 0 ≤ x.2) ∧
    dictSum (jobSkillLookup jobSkills) ≤ (jobSkills.map Prod.snd).sum := by
  obtain ⟨h1, h2⟩ := jobSkillLookup_fold_facts jobSkills [] (by simp) h
  refine ⟨h1, ?_⟩
  simpa [dictSum] using h2

theorem matchedFoldAux_bounds (cl : List (Str × CandidateSkillRow))
    (jl : List (Str × ℤ)) :
    ∀ (acc : ℤ × List Str), (∀ x ∈ jl, 0 ≤ x.2) →
      acc.1 ≤ (matchedFoldAux cl jl acc).1 ∧
      (matchedFoldAux cl jl acc).1 ≤ acc.1 + dictSum jl := by
  induction jl with
  | nil =>
    intro acc _
    simp [matchedFoldAux, dictSum]
  | cons kv rest ih =>
    intro acc h
    have hkv : (0 : ℤ) ≤ kv.2 := h kv (List.mem_cons_self _ _)
    have hrest : ∀ x ∈ rest, (0 : ℤ) ≤ x.2 :=
      fun x hx => h x (List.mem_cons_of_mem _ hx)
    cases hf : dictFind cl kv.1 with
    | some cs =>
      obtain ⟨h1, h2⟩ := ih (acc.1 + kv.2, acc.2 ++ [cs.skill_name]) hrest
      simp only [matchedFoldAux, hf]
      rw [dictSum_cons]
      dsimp only at h1 h2
      constructor
      · omega
      · omega
    | none =>
      obtain ⟨h1, h2⟩ := ih acc hrest
      simp only [matchedFoldAux, hf]
      rw [dictSum_cons]
      constructor
      · omega
      · omega

theorem matchedFold_bounds (jl : List (Str × ℤ))
    (cl : List (Str × CandidateSkillRow)) (h : ∀ x ∈ jl, 0 ≤ x.2) :
    0 ≤ (matchedFold jl cl).1 ∧ (matchedFold jl cl).1 ≤ dictSum jl := by
  obtain ⟨h1, h2⟩ := matchedFoldAux_bounds cl jl (0, []) h
  dsimp only at h1 h2
  unfold matchedFold
  exact ⟨h1, by omega⟩

theorem pool_fold_mem (jl : List (Str × ℤ)) (tw mmw : ℤ) (pool : List Candidate) :
    ∀ (acc : List MatchResult) (r : MatchResult),
      r ∈ pool.foldl (matchStep jl tw mmw) acc →
      r ∈ acc ∨
      ∃ c : Candidate, ¬((matchedFold jl (candidateSkillLookup c.skills)).1 < mmw) ∧
        r = { candidateId := c.candidateId
              fit_score := roundTo1
                (((matchedFold jl (candidateSkillLookup c.skills)).1 : ℚ)
                  / (tw : ℚ) * 100)
              matched_weight := (matchedFold jl (candidateSkillLookup c.skills)).1
              total_weight := tw
              matched_skills := (matchedFold jl (candidateSkillLookup c.skills)).2 } := by
  induction pool with
  | nil =>
    intro acc r hr
    exact Or.inl hr
  | cons c cs ih =>
    intro acc r hr
    simp only [List.foldl_cons] at hr
    rcases ih (matchStep jl tw mmw acc c) r hr with h | h
    · unfold matchStep at h
      split_ifs at h with h1 h2
      · exact Or.inl h
      · exact Or.inl h
      · rcases List.mem_append.mp h with h3 | h3
        · exact Or.inl h3
        · right
          exact ⟨c, h2, (List.mem_singleton.mp h3)⟩
    · exact Or.inr h

/-- Claim C4: under the data-model invariant that stored job-skill weights are
non-negative, `build_candidate_match_payload` never includes a candidate
whose matched weight is below `min_match_weight`, and every fit score lies
in [0, 100]. -/
theorem build_matches_threshold_and_fit (job : JobState) (pool : List Candidate)
    (min_match_weight : ℤ) (hw : ∀ p ∈ job.jobSkills, 0 ≤ p.2) :
    (build_candidate_match_payload job pool min_match_weight).all
      (fun r => decide (min_match_weight ≤ r.matched_weight
        ∧ 0 ≤ r.fit_score ∧ r.fit_score ≤ 100)) = true := by
  rw [List.all_eq_true]
  intro r hr
  simp only [decide_eq_true_eq]
  unfold build_candidate_match_payload at hr
  split_ifs at hr with hjs
  · simp at hr
  · rw [mem_sortByFitDesc] at hr
    rcases pool_fold_mem (jobSkillLookup job.jobSkills) (totalWeightOf job.jobSkills)
        min_match_weight pool [] r hr with h | ⟨c, hge, rfl⟩
    · simp at h
    · dsimp only
      obtain ⟨hnn, hsum⟩ := jobSkillLookup_facts job.jobSkills hw
      obtain ⟨hm0, hmle⟩ := matchedFold_bounds (jobSkillLookup job.jobSkills)
        (candidateSkillLookup c.skills) hnn
      have hsumnn : (0 : ℤ) ≤ (job.jobSkills.map Prod.snd).sum := by
        apply List.sum_nonneg
        intro x hx
        obtain ⟨p, hp, rfl⟩ := List.mem_map.mp hx
        exact hw p hp
      have htw1 : (1 : ℤ) ≤ totalWeightOf job.jobSkills := by
        unfold totalWeightOf
        split_ifs with h0
        · norm_num
        · omega
      have hmwtw : (matchedFold (jobSkillLookup job.jobSkills)
          (candidateSkillLookup c.skills)).1 ≤ totalWeightOf job.jobSkills := by
        unfold totalWeightOf
        split_ifs with h0
        · omega
        · omega
      have htwpos : (0 : ℚ) < (totalWeightOf job.jobSkills : ℚ) := by
        have : (0 : ℤ) < totalWeightOf job.jobSkills := by omega
        exact_mod_cast this
      have hmq : (0 : ℚ) ≤ ((matchedFold (jobSkillLookup job.jobSkills)
          (candidateSkillLookup c.skills)).1 : ℚ) := by exact_mod_cast hm0
      have hdivle : ((matchedFold (jobSkillLookup job.jobSkills)
          (candidateSkillLookup c.skills)).1 : ℚ)
          / (totalWeightOf job.jobSkills : ℚ) ≤ 1 := by
        rw [div_le_one htwpos]
        exact_mod_cast hmwtw
      have hq0 : (0 : ℚ) ≤ ((matchedFold (jobSkillLookup job.jobSkills)
          (candidateSkillLookup c.skills)).1 : ℚ)
          / (totalWeightOf job.jobSkills : ℚ) * 100 :=
        mul_nonneg (div_nonneg hmq (le_of_lt htwpos)) (by norm_num)
      have hq100 : ((matchedFold (jobSkillLookup job.jobSkills)
          (candidateSkillLookup c.skills)).1 : ℚ)
          / (totalWeightOf job.jobSkills : ℚ) * 100 ≤ 100 := by linarith
      obtain ⟨hf0, hf100⟩ := roundTo1_bounds _ hq0 hq100
      exact ⟨by omega, hf0, hf100⟩

/-- Witness for C4 at a concrete job, pool and threshold, the weights
hypothesis discharged by evaluation. -/
theorem build_matches_threshold_and_fit_witness :
    (build_candidate_match_payload ⟨"d".toList, [], true, [("python".toList, 7)]⟩
        [⟨1, [⟨"python".toList, "cv".toList, 9⟩]⟩] 1).all
      (fun r => decide ((1 : ℤ) ≤ r.matched_weight
        ∧ 0 ≤ r.fit_score ∧ r.fit_score ≤ 100)) = true :=
  build_matches_threshold_and_fit ⟨"d".toList, [], true, [("python".toList, 7)]⟩
    [⟨1, [⟨"python".toList, "cv".toList, 9⟩]⟩] 1 (by decide)

end JobBoard
